import Mathlib

/-!
Verification of spec claims for the qibo excerpt: gate fusion, the PyTorch
backend (sample conversions, `cast`, density-matrix norm), and related tests.
-/

/-- The field ℚ(√2), represented as pairs a + b·√2 with rational a, b.
Used to state the fused-gate matrix identities exactly (the Hadamard matrix
has entries ±1/√2). -/
structure Q2 where
  a : ℚ
  b : ℚ
deriving DecidableEq, Repr

instance : Zero Q2 := ⟨⟨0, 0⟩⟩

instance : One Q2 := ⟨⟨1, 0⟩⟩

instance : Add Q2 := ⟨fun x y => ⟨x.a + y.a, x.b + y.b⟩⟩

instance : Neg Q2 := ⟨fun x => ⟨-x.a, -x.b⟩⟩

instance : Mul Q2 := ⟨fun x y => ⟨x.a * y.a + 2 * (x.b * y.b), x.a * y.b + x.b * y.a⟩⟩

theorem Q2.mk_add_mk (a b c d : ℚ) : (⟨a, b⟩ + ⟨c, d⟩ : Q2) = ⟨a + c, b + d⟩ := rfl

theorem Q2.mk_mul_mk (a b c d : ℚ) :
    (⟨a, b⟩ * ⟨c, d⟩ : Q2) = ⟨a * c + 2 * (b * d), a * d + b * c⟩ := rfl

theorem Q2.neg_mk (a b : ℚ) : (-(⟨a, b⟩ : Q2)) = ⟨-a, -b⟩ := rfl

theorem Q2.zero_def : (0 : Q2) = ⟨0, 0⟩ := rfl

theorem Q2.one_def : (1 : Q2) = ⟨1, 0⟩ := rfl

instance : CommRing Q2 where
  nsmul := nsmulRec
  zsmul := zsmulRec
  add_assoc := by
    rintro ⟨a, b⟩ ⟨c, d⟩ ⟨e, f⟩
    simp only [Q2.mk_add_mk, Q2.mk.injEq]
    constructor <;> ring
  zero_add := by
    rintro ⟨a, b⟩
    simp only [Q2.zero_def, Q2.mk_add_mk, Q2.mk.injEq]
    constructor <;> ring
  add_zero := by
    rintro ⟨a, b⟩
    simp only [Q2.zero_def, Q2.mk_add_mk, Q2.mk.injEq]
    constructor <;> ring
  add_comm := by
    rintro ⟨a, b⟩ ⟨c, d⟩
    simp only [Q2.mk_add_mk, Q2.mk.injEq]
    constructor <;> ring
  left_distrib := by
    rintro ⟨a, b⟩ ⟨c, d⟩ ⟨e, f⟩
    simp only [Q2.mk_add_mk, Q2.mk_mul_mk, Q2.mk.injEq]
    constructor <;> ring
  right_distrib := by
    rintro ⟨a, b⟩ ⟨c, d⟩ ⟨e, f⟩
    simp only [Q2.mk_add_mk, Q2.mk_mul_mk, Q2.mk.injEq]
    constructor <;> ring
  zero_mul := by
    rintro ⟨a, b⟩
    simp only [Q2.zero_def, Q2.mk_mul_mk, Q2.mk.injEq]
    constructor <;> ring
  mul_zero := by
    rintro ⟨a, b⟩
    simp only [Q2.zero_def, Q2.mk_mul_mk, Q2.mk.injEq]
    constructor <;> ring
  mul_assoc := by
    rintro ⟨a, b⟩ ⟨c, d⟩ ⟨e, f⟩
    simp only [Q2.mk_mul_mk, Q2.mk.injEq]
    constructor <;> ring
  one_mul := by
    rintro ⟨a, b⟩
    simp only [Q2.one_def, Q2.mk_mul_mk, Q2.mk.injEq]
    constructor <;> ring
  mul_one := by
    rintro ⟨a, b⟩
    simp only [Q2.one_def, Q2.mk_mul_mk, Q2.mk.injEq]
    constructor <;> ring
  mul_comm := by
    rintro ⟨a, b⟩ ⟨c, d⟩
    simp only [Q2.mk_mul_mk, Q2.mk.injEq]
    constructor <;> ring
  neg_add_cancel := by
    rintro ⟨a, b⟩
    simp only [Q2.neg_mk, Q2.mk_add_mk, Q2.zero_def, Q2.mk.injEq]
    constructor <;> ring

/-! ## Circuit and gate-fusion model -/

variable {R : Type} [CommRing R]

/-- A gate acting on an `n`-qubit register, represented by its full
`2^n × 2^n` unitary block (the embedding of the gate matrix into the
whole register, qubit 0 most significant, as in qibo's kron convention). -/
structure QGate (R : Type) [CommRing R] (n : ℕ) where
  mat : Matrix (Fin (2 ^ n)) (Fin (2 ^ n)) R
deriving DecidableEq

/-- One element of a circuit queue: a gate, or a callback gate that records
a value computed from the current state (e.g. entanglement entropy). -/
inductive CircuitItem (R : Type) [CommRing R] (n : ℕ) where
  | gate (g : QGate R n)
  | callback (id : ℕ)
deriving DecidableEq

/-- Applying a gate to a state vector is matrix–vector multiplication. -/
def applyGate {n : ℕ} (g : QGate R n) (v : Fin (2 ^ n) → R) : Fin (2 ^ n) → R :=
  g.mat.mulVec v

/-- Modelled from the spec: circuit execution (the simulation semantics
delegated to the tensor backend, not itself in the excerpt). The state is
evolved gate by gate, and each callback gate records `f id state` for the
current state, in queue order. -/
def executeCircuit {V : Type} {n : ℕ} (f : ℕ → (Fin (2 ^ n) → R) → V) :
    List (CircuitItem R n) → (Fin (2 ^ n) → R) → (Fin (2 ^ n) → R) × List V
  | [], v => (v, [])
  | .gate g :: rest, v => executeCircuit f rest (applyGate g v)
  | .callback i :: rest, v =>
      let res := executeCircuit f rest v
      (res.1, f i v :: res.2)

/-- Modelled from the spec: the gate-fusion pass of `qibo.tensorflow.fusion`
(absent from the excerpt) — "merging sequential one/two-qubit gate unitaries
into larger combined unitary blocks before simulation".  Consecutive gates are
merged into a single block by multiplying their unitaries in reverse
application order; callback gates act as barriers and are kept in place. -/
def fuse {n : ℕ} : List (CircuitItem R n) → List (CircuitItem R n)
  | [] => []
  | .callback i :: rest => .callback i :: fuse rest
  | .gate g :: rest =>
      match fuse rest with
      | .gate h :: rest2 => .gate ⟨h.mat * g.mat⟩ :: rest2
      | [] => [.gate g]
      | .callback i :: rest2 => .gate g :: .callback i :: rest2

theorem executeCircuit_gate_cons {V : Type} {n : ℕ} (f : ℕ → (Fin (2 ^ n) → R) → V)
    (g : QGate R n) (rest : List (CircuitItem R n)) (v : Fin (2 ^ n) → R) :
    executeCircuit f (.gate g :: rest) v = executeCircuit f rest (applyGate g v) := rfl

theorem executeCircuit_callback_cons {V : Type} {n : ℕ} (f : ℕ → (Fin (2 ^ n) → R) → V)
    (i : ℕ) (rest : List (CircuitItem R n)) (v : Fin (2 ^ n) → R) :
    executeCircuit f (.callback i :: rest) v =
      ((executeCircuit f rest v).1, f i v :: (executeCircuit f rest v).2) := rfl

theorem fuse_exec {V : Type} {n : ℕ} (f : ℕ → (Fin (2 ^ n) → R) → V)
    (c : List (CircuitItem R n)) (v : Fin (2 ^ n) → R) :
    executeCircuit f (fuse c) v = executeCircuit f c v := by
  induction c generalizing v with
  | nil => rfl
  | cons item rest ih =>
    cases item with
    | callback i =>
      show executeCircuit f (.callback i :: fuse rest) v = _
      rw [executeCircuit_callback_cons, executeCircuit_callback_cons, ih]
    | gate g =>
      rcases hfr : fuse rest with _ | ⟨hd, tl⟩
      · have hf : fuse (CircuitItem.gate g :: rest) = [CircuitItem.gate g] := by
          simp only [fuse]
          rw [hfr]
        rw [hf, executeCircuit_gate_cons, executeCircuit_gate_cons]
        have h0 : executeCircuit f (fuse rest) (applyGate g v) =
            executeCircuit f rest (applyGate g v) := ih (applyGate g v)
        rw [hfr] at h0
        exact h0
      · cases hd with
        | gate h =>
          have hf : fuse (CircuitItem.gate g :: rest) =
              CircuitItem.gate ⟨h.mat * g.mat⟩ :: tl := by
            simp only [fuse]
            rw [hfr]
          rw [hf, executeCircuit_gate_cons, executeCircuit_gate_cons]
          have h1 : applyGate (⟨h.mat * g.mat⟩ : QGate R n) v = applyGate h (applyGate g v) := by
            show (h.mat * g.mat).mulVec v = h.mat.mulVec (g.mat.mulVec v)
            rw [Matrix.mulVec_mulVec]
          rw [h1]
          have h0 : executeCircuit f (fuse rest) (applyGate g v) =
              executeCircuit f rest (applyGate g v) := ih (applyGate g v)
          rw [hfr, executeCircuit_gate_cons] at h0
          exact h0
        | callback i =>
          have hf : fuse (CircuitItem.gate g :: rest) =
              CircuitItem.gate g :: CircuitItem.callback i :: tl := by
            simp only [fuse]
            rw [hfr]
          rw [hf, executeCircuit_gate_cons, executeCircuit_gate_cons]
          have h0 : executeCircuit f (fuse rest) (applyGate g v) =
              executeCircuit f rest (applyGate g v) := ih (applyGate g v)
          rw [hfr] at h0
          exact h0

/-- Kronecker product of two one-qubit matrices into a two-qubit matrix,
with the first factor on the most significant qubit (qibo's `np.kron`
convention in the fusion tests). -/
def kron (A B : Matrix (Fin 2) (Fin 2) R) : Matrix (Fin 4) (Fin 4) R :=
  Matrix.of fun i j =>
    A ⟨i.val / 2, by have hi := i.isLt; omega⟩ ⟨j.val / 2, by have hj := j.isLt; omega⟩ *
    B ⟨i.val % 2, by have hi := i.isLt; omega⟩ ⟨j.val % 2, by have hj := j.isLt; omega⟩

/-- The 2×2 identity matrix. -/
def eye2 : Matrix (Fin 2) (Fin 2) R :=
  Matrix.of fun i j => if i = j then 1 else 0

/-- Pauli-X matrix, as in `test_fused_gate_calculation`. -/
def pauliX : Matrix (Fin 2) (Fin 2) Q2 :=
  Matrix.of fun i j => if i = j then 0 else 1

/-- 1/√2 as an element of ℚ(√2). -/
def invSqrt2 : Q2 := ⟨0, 1 / 2⟩

/-- Hadamard matrix `[[1, 1], [1, -1]] / √2`, as in the fusion tests. -/
def hadamard : Matrix (Fin 2) (Fin 2) Q2 :=
  Matrix.of fun i j => if i = 1 ∧ j = 1 then -invSqrt2 else invSqrt2

/-- CNOT matrix (control on qubit 0), as in `test_fused_gate_calculation`. -/
def cnot : Matrix (Fin 4) (Fin 4) Q2 :=
  Matrix.of fun i j =>
    if (i.val ≤ 1 ∧ i = j) ∨ (i.val = 2 ∧ j.val = 3) ∨ (i.val = 3 ∧ j.val = 2)
    then 1 else 0

/-- The queue of `test_fused_gate_calculation`:
`[H(0), H(1), CNOT(0, 1), X(0), X(1)]`, each gate embedded in the
two-qubit register. -/
def fusionQueue : List (CircuitItem Q2 2) :=
  [ .gate ⟨kron hadamard eye2⟩
  , .gate ⟨kron eye2 hadamard⟩
  , .gate ⟨cnot⟩
  , .gate ⟨kron pauliX eye2⟩
  , .gate ⟨kron eye2 pauliX⟩ ]

theorem kron_mul_kron (A B C D : Matrix (Fin 2) (Fin 2) R) :
    kron A B * kron C D = kron (A * C) (B * D) := by
  have h3 : ((3 : Fin 4) : ℕ) = 3 := rfl
  ext i j
  fin_cases i <;> fin_cases j <;>
    simp [kron, Matrix.mul_apply, Fin.sum_univ_four, Fin.sum_univ_two, h3] <;> ring

theorem eye2_eq_one : (eye2 : Matrix (Fin 2) (Fin 2) R) = 1 := by
  ext i j
  simp [eye2, Matrix.one_apply]

/-- Error raised by qibo gate composition when target qubits do not agree,
as asserted by `test_two_qubit_gate_multiplication`. -/
inductive QiboError where
  | notImplemented
deriving DecidableEq

/-- A gate carrying its target qubits; its unitary acts on the
`2^k`-dimensional space of its `k` target qubits. -/
structure TGate (R : Type) [CommRing R] where
  targets : List ℕ
  mat : Matrix (Fin (2 ^ targets.length)) (Fin (2 ^ targets.length)) R

/-- Reindex a square matrix along an equality of dimensions. -/
def retype {m n : ℕ} (h : m = n) (M : Matrix (Fin m) (Fin m) R) :
    Matrix (Fin n) (Fin n) R :=
  Matrix.of fun i j => M (Fin.cast h.symm i) (Fin.cast h.symm j)

theorem retype_rfl {n : ℕ} (h : n = n) (M : Matrix (Fin n) (Fin n) R) :
    retype h M = M := by
  ext i j
  have hi : Fin.cast h.symm i = i := Fin.ext (by simp)
  have hj : Fin.cast h.symm j = j := Fin.ext (by simp)
  simp [retype, hi, hj]

/-- Modelled from the spec and the fusion tests: gate composition `g1 @ g2`
(the gate `__matmul__` operator, absent from the excerpt).  When the two
gates act on the same target qubits the result is one gate whose unitary is
`matrix(g1) @ matrix(g2)`; otherwise `NotImplementedError` is raised, as
`test_two_qubit_gate_multiplication` asserts. -/
def matmulGate (g1 g2 : TGate R) : Except QiboError (TGate R) :=
  if h : g1.targets = g2.targets then
    .ok ⟨g1.targets, g1.mat *
      retype (show 2 ^ g2.targets.length = 2 ^ g1.targets.length by rw [h]) g2.mat⟩
  else
    .error .notImplemented

/-- SWAP matrix on two qubits, as in the fusion tests. -/
def swapMat : Matrix (Fin 4) (Fin 4) ℚ :=
  Matrix.of fun i j =>
    if (i.val = 0 ∧ j.val = 0) ∨ (i.val = 1 ∧ j.val = 2) ∨
       (i.val = 2 ∧ j.val = 1) ∨ (i.val = 3 ∧ j.val = 3)
    then 1 else 0

/-- A two-qubit gate on targets (0, 1). -/
def gateSWAP01 : TGate ℚ := ⟨[0, 1], swapMat⟩

/-- A two-qubit gate on targets (0, 2), as in the failing composition of
`test_two_qubit_gate_multiplication`. -/
def gateSWAP02 : TGate ℚ := ⟨[0, 2], swapMat⟩

/-- C4 counterexample: composing two gates whose target qubits do not agree
does not succeed — it raises `NotImplementedError`, refuting the claim that
merging succeeds for every pair of gates regardless of targets. -/
theorem C4_counterexample_mismatched_targets :
    matmulGate gateSWAP01 gateSWAP02 = Except.error QiboError.notImplemented := by
  rw [matmulGate, dif_neg]
  intro h
  simp [gateSWAP01, gateSWAP02] at h

/-- C4 (amended): composing two gates with the `@` operator succeeds exactly
when the two gates act on the same target qubits; when the targets do not
agree a `NotImplementedError` is raised. -/
theorem C4_matmul_succeeds_iff_same_targets (g1 g2 : TGate R) :
    (g1.targets = g2.targets → (matmulGate g1 g2).isOk = true) ∧
    (g1.targets ≠ g2.targets →
      matmulGate g1 g2 = Except.error QiboError.notImplemented) := by
  constructor
  · intro h
    rw [matmulGate, dif_pos h]
    rfl
  · intro h
    rw [matmulGate, dif_neg h]

/-- C4 witness: the amended statement applied at concrete gates. -/
theorem C4_witness :
    (matmulGate gateSWAP01 gateSWAP01).isOk = true ∧
    matmulGate gateSWAP01 gateSWAP02 = Except.error QiboError.notImplemented :=
  ⟨(C4_matmul_succeeds_iff_same_targets gateSWAP01 gateSWAP01).1 rfl,
   (C4_matmul_succeeds_iff_same_targets gateSWAP01 gateSWAP02).2 (by
      intro h
      simp [gateSWAP01, gateSWAP02] at h)⟩

/-- C1: for every circuit (one- and two-qubit gates embedded in the register,
with callback gates such as entanglement entropy), executing the fused
circuit produces the same final state vector as the original circuit, and
the callbacks record the same values in both executions. -/
theorem C1_fuse_preserves_state_and_callbacks (n : ℕ)
    (f : ℕ → (Fin (2 ^ n) → ℂ) → ℝ) (c : List (CircuitItem ℂ n))
    (v : Fin (2 ^ n) → ℂ) :
    (executeCircuit f (fuse c) v).1 = (executeCircuit f c v).1 ∧
    (executeCircuit f (fuse c) v).2 = (executeCircuit f c v).2 := by
  rw [fuse_exec]
  exact ⟨rfl, rfl⟩

/-- C5: fusing the queue `[H(0), H(1), CNOT(0,1), X(0), X(1)]` produces a
single group with a single gate whose unitary is
`kron(X, X) @ CNOT @ kron(H, H)` (constituent matrices multiplied in reverse
application order); and composing two gates on the same qubits gives the
product of their matrices. -/
theorem C5_fused_gate_calculation :
    fuse fusionQueue =
      [CircuitItem.gate ⟨kron pauliX pauliX * cnot * kron hadamard hadamard⟩] ∧
    ∀ (t : List ℕ) (M1 M2 : Matrix (Fin (2 ^ t.length)) (Fin (2 ^ t.length)) Q2),
      matmulGate ⟨t, M1⟩ ⟨t, M2⟩ = Except.ok ⟨t, M1 * M2⟩ := by
  constructor
  · have h0 : fuse fusionQueue =
        [CircuitItem.gate ⟨kron eye2 pauliX * kron pauliX eye2 * cnot *
          kron eye2 hadamard * kron hadamard eye2⟩] := rfl
    have e1 : kron eye2 pauliX * kron pauliX eye2 = (kron pauliX pauliX : Matrix (Fin 4) (Fin 4) Q2) := by
      rw [kron_mul_kron, eye2_eq_one, one_mul, mul_one]
    have e2 : kron eye2 hadamard * kron hadamard eye2 = (kron hadamard hadamard : Matrix (Fin 4) (Fin 4) Q2) := by
      rw [kron_mul_kron, eye2_eq_one, one_mul, mul_one]
    rw [h0, mul_assoc, e1, e2]
  · intro t M1 M2
    rw [matmulGate, dif_pos rfl, retype_rfl]

/-! ## PyTorch backend: sample conversions (`pytorch.py`) -/

/-- Two's-complement wrap of an integer to torch `int32`. -/
def wrap32 (x : ℤ) : ℤ := (x + 2 ^ 31) % 2 ^ 32 - 2 ^ 31

/-- `PyTorchBackend.samples_to_decimal`: the samples are cast to `int32`,
`qrange` is `2 ** arange(nqubits-1, -1, -1)` computed in `int32`, and the
result is the `int32` matrix product `samples @ qrange`.  Every elementary
product and accumulation wraps in 32-bit arithmetic. -/
def PyTorchBackend.samples_to_decimal (samples : List (List ℤ)) (nqubits : ℕ) : List ℤ :=
  let qrange := (List.range nqubits).map fun j => wrap32 (2 ^ (nqubits - 1 - j))
  samples.map fun row =>
    ((row.map wrap32).zip qrange).foldl (fun acc p => wrap32 (acc + wrap32 (p.1 * p.2))) 0

/-- `PyTorchBackend.samples_to_binary`: the decimals are cast to `int32`,
then shifted arithmetically right by `arange(nqubits-1, -1, -1)` and reduced
mod 2 (torch `%` has the sign of the divisor, i.e. `Int.emod`). -/
def PyTorchBackend.samples_to_binary (samples : List ℤ) (nqubits : ℕ) : List (List ℤ) :=
  samples.map fun d =>
    (List.range nqubits).map fun j => Int.fdiv (wrap32 d) (2 ^ (nqubits - 1 - j)) % 2

/-- Base-2 value of a row of bits, first entry most significant (the value
the spec says `samples_to_decimal` returns for each row). -/
def rowValue (row : List ℤ) : ℤ := row.foldl (fun acc b => 2 * acc + b) 0

/-- The 32-bit row `[1, 0, ..., 0]`, whose base-2 value `2^31` overflows
torch `int32`. -/
def row32 : List ℤ := 1 :: List.replicate 31 0

set_option maxRecDepth 4000 in
/-- C8 counterexample: at `nqubits = 32` the weight `2^31` overflows
`int32`, so `samples_to_decimal` does not return the base-2 value of the
row `[1, 0, ..., 0]` (it returns `-2^31` instead of `2^31`). -/
theorem C8_counterexample_nqubits32 :
    PyTorchBackend.samples_to_decimal [row32] 32 = [-(2 ^ 31)] ∧
    rowValue row32 = 2 ^ 31 ∧
    PyTorchBackend.samples_to_decimal [row32] 32 ≠ [row32].map rowValue := by
  refine ⟨by decide, by decide, ?_⟩
  intro h
  have h2 : ([row32].map rowValue : List ℤ) = [2 ^ 31] := by decide
  rw [h2] at h
  have h1 : PyTorchBackend.samples_to_decimal [row32] 32 = [-(2 ^ 31)] := by decide
  rw [h1] at h
  exact absurd (List.head_eq_of_cons_eq h) (by decide)

theorem wrap32_eq_self (x : ℤ) (h0 : -(2 ^ 31) ≤ x) (h1 : x < 2 ^ 31) :
    wrap32 x = x := by
  unfold wrap32
  omega

theorem foldl_rowValue_acc (l : List ℤ) (a : ℤ) :
    l.foldl (fun acc b => 2 * acc + b) a =
      a * 2 ^ l.length + l.foldl (fun acc b => 2 * acc + b) 0 := by
  induction l generalizing a with
  | nil => simp
  | cons b bs ih =>
    rw [List.foldl_cons, List.foldl_cons, ih (2 * a + b), ih (2 * 0 + b),
      List.length_cons, pow_succ]
    ring

theorem rowValue_cons (b : ℤ) (bs : List ℤ) :
    rowValue (b :: bs) = b * 2 ^ bs.length + rowValue bs := by
  unfold rowValue
  rw [List.foldl_cons, foldl_rowValue_acc bs (2 * 0 + b)]
  ring

theorem rowValue_bounds (bs : List ℤ) (h : ∀ b ∈ bs, b = 0 ∨ b = 1) :
    0 ≤ rowValue bs ∧ rowValue bs < 2 ^ bs.length := by
  induction bs with
  | nil => simp [rowValue]
  | cons b bs ih =>
    have hb : b = 0 ∨ b = 1 := h b (List.mem_cons_self b bs)
    have ihs := ih fun x hx => h x (List.mem_cons_of_mem b hx)
    rw [rowValue_cons]
    rcases hb with hb | hb <;>
      simp [hb, List.length_cons, pow_succ] <;> omega

theorem digit_shift (r b : ℤ) (m e : ℕ) (he : e < m) :
    (r + b * 2 ^ m) / 2 ^ e % 2 = r / 2 ^ e % 2 := by
  have hpow : (2 : ℤ) ^ m = 2 ^ (m - e) * 2 ^ e := (pow_sub_mul_pow 2 (le_of_lt he)).symm
  have h2 : (2 : ℤ) ^ e ≠ 0 := by positivity
  rw [hpow, show b * ((2 : ℤ) ^ (m - e) * 2 ^ e) = b * 2 ^ (m - e) * 2 ^ e by ring,
    Int.add_mul_ediv_right r _ h2]
  have hme : m - e = m - e - 1 + 1 := by omega
  rw [hme, pow_succ, show r / 2 ^ e + b * ((2 : ℤ) ^ (m - e - 1) * 2) =
    r / 2 ^ e + 2 * (b * 2 ^ (m - e - 1)) by ring]
  exact Int.add_mul_emod_self_left (r / 2 ^ e) 2 (b * 2 ^ (m - e - 1))

theorem head_digit (b r : ℤ) (m : ℕ) (hb : b = 0 ∨ b = 1) (h0 : 0 ≤ r)
    (h1 : r < 2 ^ m) : (b * 2 ^ m + r) / 2 ^ m % 2 = b := by
  have h2 : (2 : ℤ) ^ m ≠ 0 := by positivity
  rw [add_comm, Int.add_mul_ediv_right r b h2, Int.ediv_eq_zero_of_lt h0 h1, zero_add]
  rcases hb with hb | hb <;> simp [hb]

theorem binary_of_rowValue (bs : List ℤ) (h01 : ∀ b ∈ bs, b = 0 ∨ b = 1) :
    (List.range bs.length).map
      (fun j => rowValue bs / 2 ^ (bs.length - 1 - j) % 2) = bs := by
  induction bs with
  | nil => simp
  | cons b bs ih =>
    have hb : b = 0 ∨ b = 1 := h01 b (List.mem_cons_self b bs)
    have h01s : ∀ x ∈ bs, x = 0 ∨ x = 1 := fun x hx => h01 x (List.mem_cons_of_mem b hx)
    have hbnd := rowValue_bounds bs h01s
    rw [List.length_cons, List.range_succ_eq_map, List.map_cons, List.map_map]
    congr 1
    · rw [rowValue_cons, show bs.length + 1 - 1 - 0 = bs.length by omega]
      exact head_digit b (rowValue bs) bs.length hb hbnd.1 hbnd.2
    · have hmap : ∀ j ∈ List.range bs.length,
          ((fun j => rowValue (b :: bs) / 2 ^ (bs.length + 1 - 1 - j) % 2) ∘ Nat.succ) j
            = rowValue bs / 2 ^ (bs.length - 1 - j) % 2 := by
        intro j hj
        have hj' : j < bs.length := List.mem_range.mp hj
        simp only [Function.comp]
        rw [rowValue_cons, show bs.length + 1 - 1 - Nat.succ j = bs.length - 1 - j by omega,
          add_comm (b * 2 ^ bs.length) (rowValue bs),
          digit_shift (rowValue bs) b bs.length _ (by omega)]
      rw [List.map_congr_left hmap, ih h01s]

theorem rowValue_of_digits (n : ℕ) (d : ℤ) (h0 : 0 ≤ d) (h1 : d < 2 ^ n) :
    rowValue ((List.range n).map fun j => d / 2 ^ (n - 1 - j) % 2) = d := by
  induction n generalizing d with
  | zero =>
    simp only [List.range_zero, List.map_nil]
    have : d = 0 := by omega
    simp [rowValue, this]
  | succ m ih =>
    rw [List.range_succ_eq_map, List.map_cons, List.map_map]
    have hpow : (0 : ℤ) < 2 ^ m := by positivity
    have hd : 2 ^ m * (d / 2 ^ m) + d % 2 ^ m = d := Int.ediv_add_emod d (2 ^ m)
    have hbpos : 0 ≤ d / 2 ^ m := Int.ediv_nonneg h0 (le_of_lt hpow)
    have hblt : d / 2 ^ m < 2 := by
      rw [Int.ediv_lt_iff_lt_mul hpow]
      calc d < 2 ^ (m + 1) := h1
        _ = 2 * 2 ^ m := by rw [pow_succ]; ring
    have hb : d / 2 ^ m = 0 ∨ d / 2 ^ m = 1 := by omega
    have hr0 : 0 ≤ d % 2 ^ m := Int.emod_nonneg d (ne_of_gt hpow)
    have hr1 : d % 2 ^ m < 2 ^ m := Int.emod_lt_of_pos d hpow
    have hhead : d / 2 ^ (m + 1 - 1 - 0) % 2 = d / 2 ^ m := by
      rw [show m + 1 - 1 - 0 = m by omega]
      rcases hb with hb | hb <;> rw [hb] <;> decide
    have htail : ∀ j ∈ List.range m,
        ((fun j => d / 2 ^ (m + 1 - 1 - j) % 2) ∘ Nat.succ) j
          = d % 2 ^ m / 2 ^ (m - 1 - j) % 2 := by
      intro j hj
      have hj' : j < m := List.mem_range.mp hj
      simp only [Function.comp]
      rw [show m + 1 - 1 - Nat.succ j = m - 1 - j by omega]
      conv_lhs => rw [← hd]
      rw [show 2 ^ m * (d / 2 ^ m) + d % 2 ^ m
          = d % 2 ^ m + (d / 2 ^ m) * 2 ^ m by ring,
        digit_shift (d % 2 ^ m) (d / 2 ^ m) m _ (by omega)]
    rw [hhead, List.map_congr_left htail, rowValue_cons,
      ih (d % 2 ^ m) hr0 hr1]
    have hlen : ((List.range m).map fun j => d % 2 ^ m / 2 ^ (m - 1 - j) % 2).length = m := by
      simp
    rw [hlen]
    linarith [hd]

theorem wfold_eq_sum (l : List (ℤ × ℤ)) (a : ℤ)
    (hnn : ∀ p ∈ l, 0 ≤ p.1 * p.2) (h0 : 0 ≤ a)
    (hbnd : a + (l.map fun p => p.1 * p.2).sum < 2 ^ 31) :
    l.foldl (fun acc p => wrap32 (acc + wrap32 (p.1 * p.2))) a =
      a + (l.map fun p => p.1 * p.2).sum := by
  induction l generalizing a with
  | nil => simp
  | cons p l ih =>
    have hp : 0 ≤ p.1 * p.2 := hnn p (List.mem_cons_self p l)
    have hnn' : ∀ q ∈ l, 0 ≤ q.1 * q.2 := fun q hq => hnn q (List.mem_cons_of_mem p hq)
    have hsum : 0 ≤ (l.map fun q => q.1 * q.2).sum := List.sum_nonneg (by
      intro x hx
      rcases List.mem_map.mp hx with ⟨q, hq, rfl⟩
      exact hnn' q hq)
    rw [List.map_cons, List.sum_cons] at hbnd ⊢
    rw [List.foldl_cons]
    have hw1 : wrap32 (p.1 * p.2) = p.1 * p.2 := wrap32_eq_self _ (by omega) (by omega)
    have hw2 : wrap32 (a + p.1 * p.2) = a + p.1 * p.2 := wrap32_eq_self _ (by omega) (by omega)
    rw [hw1, hw2, ih (a + p.1 * p.2) hnn' (by omega) (by omega)]
    ring

theorem sum_zip_weights (bs : List ℤ) :
    ((bs.zip ((List.range bs.length).map fun j => (2 : ℤ) ^ (bs.length - 1 - j))).map
      fun p => p.1 * p.2).sum = rowValue bs := by
  induction bs with
  | nil => simp [rowValue]
  | cons b bs ih =>
    rw [List.length_cons, List.range_succ_eq_map, List.map_cons, List.map_map,
      show bs.length + 1 - 1 - 0 = bs.length by omega]
    have hmap : ∀ j ∈ List.range bs.length,
        ((fun j => (2 : ℤ) ^ (bs.length + 1 - 1 - j)) ∘ Nat.succ) j
          = (2 : ℤ) ^ (bs.length - 1 - j) := by
      intro j hj
      simp only [Function.comp]
      rw [show bs.length + 1 - 1 - Nat.succ j = bs.length - 1 - j by omega]
    rw [List.map_congr_left hmap, List.zip_cons_cons, List.map_cons, List.sum_cons,
      ih, rowValue_cons]

theorem decimal_row (bs : List ℤ) (hn : bs.length ≤ 31)
    (h01 : ∀ b ∈ bs, b = 0 ∨ b = 1) :
    ((bs.map wrap32).zip ((List.range bs.length).map fun j =>
        wrap32 (2 ^ (bs.length - 1 - j)))).foldl
      (fun acc p => wrap32 (acc + wrap32 (p.1 * p.2))) 0 = rowValue bs := by
  have hmap1 : bs.map wrap32 = bs := by
    have h : bs.map wrap32 = bs.map id := List.map_congr_left (by
      intro b hb
      rcases h01 b hb with hb' | hb' <;> rw [hb'] <;> decide)
    rw [h, List.map_id]
  have hmap2 : (List.range bs.length).map (fun j => wrap32 (2 ^ (bs.length - 1 - j)))
      = (List.range bs.length).map (fun j => (2 : ℤ) ^ (bs.length - 1 - j)) := by
    apply List.map_congr_left
    intro j hj
    apply wrap32_eq_self
    · have hp : (0 : ℤ) ≤ 2 ^ (bs.length - 1 - j) := by positivity
      linarith
    · calc (2 : ℤ) ^ (bs.length - 1 - j) ≤ 2 ^ 30 :=
        pow_le_pow_right (by norm_num) (by omega)
        _ < 2 ^ 31 := by norm_num
  have hnn : ∀ p ∈ bs.zip ((List.range bs.length).map fun j =>
      (2 : ℤ) ^ (bs.length - 1 - j)), 0 ≤ p.1 * p.2 := by
    intro p hp
    obtain ⟨hp1, hp2⟩ := List.of_mem_zip hp
    have h1 : 0 ≤ p.1 := by rcases h01 p.1 hp1 with h | h <;> rw [h] <;> norm_num
    have h2 : 0 ≤ p.2 := by
      rcases List.mem_map.mp hp2 with ⟨j, hj, hje⟩
      rw [← hje]
      positivity
    exact mul_nonneg h1 h2
  have hbv := rowValue_bounds bs h01
  have hbig : (2 : ℤ) ^ bs.length ≤ 2 ^ 31 := pow_le_pow_right (by norm_num) hn
  have hbnd : (0 : ℤ) + ((bs.zip ((List.range bs.length).map fun j =>
      (2 : ℤ) ^ (bs.length - 1 - j))).map fun p => p.1 * p.2).sum < 2 ^ 31 := by
    rw [zero_add, sum_zip_weights]
    linarith
  rw [hmap1, hmap2, wfold_eq_sum _ 0 hnn le_rfl hbnd, zero_add, sum_zip_weights]

/-- C8 (amended): for `nqubits ≤ 31` (so that no `int32` weight overflows),
`samples_to_decimal` returns the base-2 value of each row (first column most
significant), `samples_to_binary` inverts it on bit matrices, and
`samples_to_decimal` inverts `samples_to_binary` on decimals `0 ≤ d < 2^nqubits`. -/
theorem C8_amended_samples_roundtrip :
    (∀ (s : List (List ℤ)) (n : ℕ), n ≤ 31 →
        (∀ row ∈ s, row.length = n) →
        (∀ row ∈ s, ∀ b ∈ row, b = 0 ∨ b = 1) →
        PyTorchBackend.samples_to_decimal s n = s.map rowValue ∧
        PyTorchBackend.samples_to_binary (PyTorchBackend.samples_to_decimal s n) n = s) ∧
    (∀ (ds : List ℤ) (n : ℕ), n ≤ 31 →
        (∀ d ∈ ds, 0 ≤ d ∧ d < 2 ^ n) →
        PyTorchBackend.samples_to_decimal (PyTorchBackend.samples_to_binary ds n) n = ds) := by
  have hdec : ∀ (s : List (List ℤ)) (n : ℕ), n ≤ 31 →
      (∀ row ∈ s, row.length = n) →
      (∀ row ∈ s, ∀ b ∈ row, b = 0 ∨ b = 1) →
      PyTorchBackend.samples_to_decimal s n = s.map rowValue := by
    intro s n hn hshape hentries
    simp only [PyTorchBackend.samples_to_decimal]
    apply List.map_congr_left
    intro row hrow
    have hlen := hshape row hrow
    rw [← hlen]
    exact decimal_row row (hlen ▸ hn) (hentries row hrow)
  have hbin : ∀ (s : List (List ℤ)) (n : ℕ), n ≤ 31 →
      (∀ row ∈ s, row.length = n) →
      (∀ row ∈ s, ∀ b ∈ row, b = 0 ∨ b = 1) →
      PyTorchBackend.samples_to_binary (s.map rowValue) n = s := by
    intro s n hn hshape hentries
    simp only [PyTorchBackend.samples_to_binary, List.map_map]
    conv_rhs => rw [← List.map_id s]
    apply List.map_congr_left
    intro row hrow
    have hlen := hshape row hrow
    have h01 := hentries row hrow
    have hbv := rowValue_bounds row h01
    have hbig : (2 : ℤ) ^ row.length ≤ 2 ^ 31 :=
      pow_le_pow_right (by norm_num) (le_of_eq_of_le hlen hn)
    have hw : wrap32 (rowValue row) = rowValue row :=
      wrap32_eq_self _ (by linarith [hbv.1]) (by linarith [hbv.2])
    simp only [Function.comp, id]
    rw [hw]
    have hstep : (List.range n).map
        (fun j => Int.fdiv (rowValue row) (2 ^ (n - 1 - j)) % 2)
        = (List.range n).map (fun j => rowValue row / 2 ^ (n - 1 - j) % 2) :=
      List.map_congr_left fun j hj => by
        rw [Int.fdiv_eq_ediv _ (by positivity)]
    rw [hstep, ← hlen, binary_of_rowValue row h01]
  refine ⟨fun s n hn hshape hentries => ⟨hdec s n hn hshape hentries, ?_⟩,
    fun ds n hn hds => ?_⟩
  · rw [hdec s n hn hshape hentries]
    exact hbin s n hn hshape hentries
  · have hrows : PyTorchBackend.samples_to_binary ds n
        = ds.map fun d => (List.range n).map fun j => d / 2 ^ (n - 1 - j) % 2 := by
      simp only [PyTorchBackend.samples_to_binary]
      apply List.map_congr_left
      intro d hd
      obtain ⟨hd0, hd1⟩ := hds d hd
      have hbig : (2 : ℤ) ^ n ≤ 2 ^ 31 := pow_le_pow_right (by norm_num) hn
      have hw : wrap32 d = d := wrap32_eq_self _ (by linarith) (by linarith)
      rw [hw]
      apply List.map_congr_left
      intro j hj
      rw [Int.fdiv_eq_ediv _ (by positivity)]
    rw [hrows, hdec _ n hn ?_ ?_]
    · rw [List.map_map]
      conv_rhs => rw [← List.map_id ds]
      apply List.map_congr_left
      intro d hd
      obtain ⟨hd0, hd1⟩ := hds d hd
      simp only [Function.comp, id]
      exact rowValue_of_digits n d hd0 hd1
    · intro row hrow
      rcases List.mem_map.mp hrow with ⟨d, hd, hde⟩
      rw [← hde]
      simp
    · intro row hrow
      rcases List.mem_map.mp hrow with ⟨d, hd, hde⟩
      intro b hb
      rw [← hde] at hb
      rcases List.mem_map.mp hb with ⟨j, hj, hbe⟩
      rw [← hbe]
      exact Int.emod_two_eq _

/-- C8 witness: the amended statement evaluated at `nqubits = 2`,
`s = [[1, 0], [1, 1]]` and `ds = [2, 3]`. -/
theorem C8_witness :
    PyTorchBackend.samples_to_decimal [[1, 0], [1, 1]] 2 = [[1, 0], [1, 1]].map rowValue ∧
    PyTorchBackend.samples_to_binary
      (PyTorchBackend.samples_to_decimal [[1, 0], [1, 1]] 2) 2 = [[1, 0], [1, 1]] ∧
    PyTorchBackend.samples_to_decimal
      (PyTorchBackend.samples_to_binary [2, 3] 2) 2 = [2, 3] := by
  have h1 := C8_amended_samples_roundtrip.1 [[1, 0], [1, 1]] 2 (by norm_num)
    (by intro row hrow; fin_cases hrow <;> rfl)
    (by intro row hrow; fin_cases hrow <;> (intro b hb; fin_cases hb <;> simp))
  have h2 := C8_amended_samples_roundtrip.2 [2, 3] 2 (by norm_num)
    (by intro d hd; fin_cases hd <;> norm_num)
  exact ⟨h1.1, h1.2, h2⟩

/-! ## PyTorch backend: `cast` -/

/-- The torch dtypes named in `torch_dtype_dict`. -/
inductive TorchDType where
  | int32
  | int64
  | float32
  | float64
  | complex64
  | complex128
deriving DecidableEq, Repr

/-- A torch tensor, abstracted to its dtype and flattened contents
(numeric precision of a `.to(dtype)` conversion is not modelled). -/
structure Tensor where
  dtype : TorchDType
  data : List ℚ
deriving DecidableEq, Repr

/-- An element of a Python list handed to `cast`: a tensor or a number. -/
inductive CastElem where
  | tn (t : Tensor)
  | num (q : ℚ)
deriving DecidableEq, Repr

/-- The input of `PyTorchBackend.cast`: a tensor, a list, or a number. -/
inductive CastInput where
  | tensor (t : Tensor)
  | list (es : List CastElem)
  | num (q : ℚ)
deriving DecidableEq, Repr

def CastElem.isTensor : CastElem → Bool
  | .tn _ => true
  | .num _ => false

/-- `torch.stack`: a non-empty list of tensors of one dtype is stacked and
keeps that dtype; the empty list raises, and stacking tensors of different
dtypes is not used by the code modelled here. -/
def torchStack (ts : List Tensor) : Option Tensor :=
  match ts with
  | [] => none
  | t :: rest =>
      if rest.all fun r => r.dtype == t.dtype then
        some ⟨t.dtype, (ts.map Tensor.data).join⟩
      else none

/-- `torch.tensor(x, dtype=dtype)` on a Python list: converts plain numeric
data to a fresh tensor of the requested dtype; a list that still contains
tensor elements is rejected. -/
def torchTensor (es : List CastElem) (d : TorchDType) : Option Tensor :=
  if es.all fun e => e.isTensor = false then
    some ⟨d, es.filterMap fun e => match e with | .num q => some q | .tn _ => none⟩
  else none

/-- The backend default dtype: `NumpyBackend` sets `dtype = "complex128"`
and `PyTorchBackend.__init__` maps it through `torch_dtype_dict`. -/
def backendDefaultDtype : TorchDType := .complex128

/-- `PyTorchBackend.cast` (pytorch.py): the requested dtype defaults to the
backend dtype when `None`; a tensor is converted with `.to(dtype)`; a list
whose elements are all tensors is passed to `torch.stack` without applying
the requested dtype; any other input goes through
`torch.tensor(x, dtype=dtype)`.  The `copy` flag only clones storage and is
omitted from this value-level model. -/
def PyTorchBackend.cast (x : CastInput) (dtype : Option TorchDType) : Option Tensor :=
  let d := dtype.getD backendDefaultDtype
  match x with
  | .tensor t => some ⟨d, t.data⟩
  | .list es =>
      if es.all fun e => e.isTensor then
        torchStack (es.filterMap fun e => match e with | .tn t => some t | .num _ => none)
      else torchTensor es d
  | .num q => some ⟨d, [q]⟩

/-- C9: on a list whose elements are all tensors, `cast` returns the stack
with the elements' original dtype — the requested dtype is not applied —
while a single tensor or a non-tensor input is converted to the requested
dtype, which defaults to the backend dtype when `None`. -/
theorem C9_cast_list_keeps_dtype :
    (∀ (ts : List Tensor) (dt0 : TorchDType) (dtype : Option TorchDType),
        ts ≠ [] → (∀ t ∈ ts, t.dtype = dt0) →
        PyTorchBackend.cast (.list (ts.map CastElem.tn)) dtype
          = some ⟨dt0, (ts.map Tensor.data).join⟩) ∧
    (∀ (t : Tensor) (dt : TorchDType),
        PyTorchBackend.cast (.tensor t) (some dt) = some ⟨dt, t.data⟩) ∧
    (∀ (q : ℚ) (dt : TorchDType),
        PyTorchBackend.cast (.num q) (some dt) = some ⟨dt, [q]⟩) ∧
    (∀ (t : Tensor), PyTorchBackend.cast (.tensor t) none
        = some ⟨backendDefaultDtype, t.data⟩) := by
  refine ⟨?_, fun t dt => rfl, fun q dt => rfl, fun t => rfl⟩
  intro ts dt0 dtype hne hdt
  simp only [PyTorchBackend.cast]
  have hall : ((ts.map CastElem.tn).all fun e => e.isTensor) = true := by
    rw [List.all_eq_true]
    intro e he
    rcases List.mem_map.mp he with ⟨t, ht, rfl⟩
    rfl
  rw [if_pos hall, List.filterMap_map]
  have hfm : (ts.filterMap fun t =>
      (fun e => match e with | .tn t => some t | .num _ => none) (CastElem.tn t)) = ts := by
    simp
  rw [show ((fun e => match e with | CastElem.tn t => some t | CastElem.num _ => none)
      ∘ CastElem.tn) = some from rfl, List.filterMap_some]
  obtain ⟨t, rest, rfl⟩ := List.exists_cons_of_ne_nil hne
  have hcond : (rest.all fun r => r.dtype == t.dtype) = true := by
    rw [List.all_eq_true]
    intro r hr
    rw [beq_iff_eq, hdt r (List.mem_cons_of_mem t hr), hdt t (List.mem_cons_self t rest)]
  simp only [torchStack, hcond, if_true]
  rw [hdt t (List.mem_cons_self t rest)]

/-- C9 witness: stacking two float32 tensors under a requested complex128
dtype keeps float32; the other branches apply the requested dtype. -/
theorem C9_witness :
    PyTorchBackend.cast
        (.list [CastElem.tn ⟨.float32, [1]⟩, CastElem.tn ⟨.float32, [2]⟩])
        (some .complex128) = some ⟨.float32, [1, 2]⟩ ∧
    PyTorchBackend.cast (.tensor ⟨.float32, [1]⟩) (some .complex128)
      = some ⟨.complex128, [1]⟩ ∧
    PyTorchBackend.cast (.num 3) none = some ⟨backendDefaultDtype, [3]⟩ := by
  refine ⟨?_, C9_cast_list_keeps_dtype.2.1 ⟨.float32, [1]⟩ .complex128, ?_⟩
  · have h := C9_cast_list_keeps_dtype.1 [⟨.float32, [1]⟩, ⟨.float32, [2]⟩]
      .float32 (some .complex128) (by simp)
      (by intro t ht; fin_cases ht <;> rfl)
    simpa using h
  · exact C9_cast_list_keeps_dtype.2.2.2 ⟨.float32, [3]⟩ ▸ rfl

/-! ## PyTorch backend: density-matrix norm -/

/-- The `order` argument of `calculate_norm_density_matrix`
(`"nuc"` is the default). -/
inductive NormOrder where
  | nuc
  | p (val : ℝ)

/-- `torch.trace`: the sum of the diagonal entries. -/
def torch_trace {n : ℕ} (m : Matrix (Fin n) (Fin n) ℝ) : ℝ := ∑ i, m i i

/-- `torch.norm(state, p=order)` for a numeric order: the entrywise p-norm
of the flattened matrix. -/
noncomputable def torch_norm (p : ℝ) {n : ℕ} (m : Matrix (Fin n) (Fin n) ℝ) : ℝ :=
  (∑ i, ∑ j, |m i j| ^ p) ^ (1 / p)

/-- `PyTorchBackend.calculate_norm_density_matrix` (pytorch.py):
`torch.trace(state)` when the order is `"nuc"`, `torch.norm(state, p=order)`
otherwise. -/
noncomputable def PyTorchBackend.calculate_norm_density_matrix {n : ℕ}
    (state : Matrix (Fin n) (Fin n) ℝ) (order : NormOrder) : ℝ :=
  match order with
  | .nuc => torch_trace state
  | .p v => torch_norm v state

/-- Nuclear norm of a real diagonal matrix: the sum of its singular values,
which are the absolute values of the diagonal entries.  This is the quantity
the order name `"nuc"` refers to. -/
def diagNuclearNorm {n : ℕ} (d : Fin n → ℝ) : ℝ := ∑ i, |d i|

/-- C10: with the default order `"nuc"` the function returns the trace — not
the nuclear norm, from which it differs already on `diag(-1, -1)` — and for
every numeric order `p` it returns the p-norm. -/
theorem C10_norm_density_matrix_branches :
    (∀ (n : ℕ) (m : Matrix (Fin n) (Fin n) ℝ),
        PyTorchBackend.calculate_norm_density_matrix m NormOrder.nuc = torch_trace m) ∧
    (∀ (n : ℕ) (m : Matrix (Fin n) (Fin n) ℝ) (p : ℝ),
        PyTorchBackend.calculate_norm_density_matrix m (NormOrder.p p) = torch_norm p m) ∧
    PyTorchBackend.calculate_norm_density_matrix
        (Matrix.diagonal ![(-1 : ℝ), -1]) NormOrder.nuc
      ≠ diagNuclearNorm ![(-1 : ℝ), -1] := by
  refine ⟨fun n m => rfl, fun n m p => rfl, ?_⟩
  show torch_trace (Matrix.diagonal ![(-1 : ℝ), -1]) ≠ diagNuclearNorm ![(-1 : ℝ), -1]
  have h1 : torch_trace (Matrix.diagonal ![(-1 : ℝ), -1]) = -2 := by
    simp [torch_trace, Fin.sum_univ_two]
    norm_num
  have h2 : diagNuclearNorm ![(-1 : ℝ), -1] = 2 := by
    simp [diagNuclearNorm, Fin.sum_univ_two]
    norm_num
  rw [h1, h2]
  norm_num
